import Mathlib

/-!
Shallow embedding of the autoscaling worker-pool dispatcher from
`awx/main/dispatch/pool.py` (classes `PoolWorker`, `StatefulPoolWorker`,
`WorkerPool`, `AutoscalePool`).

Modelling conventions:
* A task message (a Python dict) is a `Msg` record; `errbacks` is a list of
  messages (failure-callback descriptors are themselves dict messages,
  opaque to the dispatcher).  Queue entries are `Item`s: either the string
  sentinel `'QUIT'` or a dict message.  Dict messages in play are non-empty
  dicts, hence truthy.
* The two `multiprocessing.Queue`s are bounded FIFO lists with an explicit
  capacity; a blocking `put` with no timeout on a full queue is modelled as
  a distinguished `blocked` outcome, and `put` with a timeout as a
  `QueueFull` failure result.
* OS-level effects (fork success, `os.kill` success, `random` draws,
  `uuid4`, `time.time()`) are supplied by explicit oracle parameters:
  an `Env` carrying a stream of random draws, a fresh-uuid counter and a
  stream of fork outcomes, plus a `now` clock argument where needed.
* The stateless/stateful worker subclassing (`track_managed_tasks`) is a
  Boolean field, selected at pool construction, as in the source's
  `pool_cls` attribute.
* Database / cache / metrics / signal collaborators are external: calls to
  them do not change dispatcher state and their failures are caught and
  logged in the source wherever relevant; the duplicate-completion warning
  is counted in `Worker.warnings` so it is observable.
-/

/-- A task message: the dict placed on a worker's inbound queue.  Fields the
dispatcher itself inspects, plus an opaque payload for everything else. -/
structure Msg where
  uuid : Option String
  task : Option String
  errbacks : List Msg
  started : Option Nat
  age : Option Nat
  bindKw : List String
  payload : Nat

/-- An entry of an inbound queue: the `'QUIT'` sentinel string or a dict. -/
inductive Item where
  | quit : Item
  | dict : Msg → Item

/-- Python truthiness of the `!= 'QUIT'` / sentinel checks: is this entry the
quit sentinel? -/
def Item.isQuit : Item → Bool
  | Item.quit => true
  | Item.dict _ => false

/-- Python falsiness of `body.get('uuid')`: the correlation id is absent or
the empty string. -/
def needsUuid (m : Msg) : Bool :=
  match m.uuid with
  | none => true
  | some s => s.isEmpty

/-- Deterministic stand-in for `uuid4()`: the k-th fresh correlation id. -/
def uuidName (k : Nat) : String := "uuid-" ++ toString k

/-- Oracle for everything the OS supplies: random draws (`random.choice`,
`random.shuffle`), the fresh-uuid counter, and fork outcomes. -/
structure Env where
  rand : List Nat
  uuidCtr : Nat
  forks : List Bool

def Env.next (e : Env) : Nat × Env :=
  (e.rand.headD 0, { e with rand := e.rand.tail })

def Env.nextFork (e : Env) : Bool × Env :=
  (e.forks.headD true, { e with forks := e.forks.tail })

def Env.fresh (e : Env) : String × Env :=
  (uuidName e.uuidCtr, { e with uuidCtr := e.uuidCtr + 1 })

def env0 : Env := ⟨[], 0, []⟩

/-- `random.shuffle`, Fisher-Yates driven by the draw stream: repeatedly pick
the element at `r mod remaining-length`.  Every permutation is reachable for
a suitable stream; an exhausted stream leaves the rest in place. -/
def shuffleWith : List Nat → List α → List α
  | [], l => l
  | _ :: _, [] => []
  | r :: rs, a :: t =>
    (a :: t).get ⟨r % (t.length + 1), Nat.mod_lt _ (Nat.succ_pos _)⟩ ::
      shuffleWith rs ((a :: t).eraseIdx (r % (t.length + 1)))

/-- `collections.OrderedDict` as an association list in insertion order:
assignment keeps an existing key's position and updates its value, otherwise
appends. -/
def setOD (k : String) (v : Item) : List (String × Item) → List (String × Item)
  | [] => [(k, v)]
  | (k', v') :: t => if k' == k then (k, v) :: t else (k', v') :: setOD k v t

/-- `del d[k]` on the ordered dict (keys are unique by construction). -/
def eraseKey (k : String) : List (String × Item) → List (String × Item)
  | [] => []
  | (k', v') :: t => if k' == k then t else (k', v') :: eraseKey k t

/-- `k in d` on the ordered dict. -/
def containsKey (k : String) (l : List (String × Item)) : Bool :=
  l.any (fun kv => kv.1 == k)

/-- `d.get(k)` on the ordered dict. -/
def lookupOD (k : String) : List (String × Item) → Option Item
  | [] => none
  | (k', v) :: t => if k' == k then some v else lookupOD k t

/-- `PoolWorker` / `StatefulPoolWorker`: one forked worker process with its
bounded inbound queue, completion queue and managed-task ordered dict.
`track` is the `track_managed_tasks` class attribute; `alive` mirrors
`process.is_alive()`; `warnings` counts duplicate-completion log warnings. -/
structure Worker where
  messages_sent : Nat
  messages_finished : Nat
  managed_tasks : List (String × Item)
  finished : List String
  queue : List Item
  cap : Nat
  alive : Bool
  pid : Nat
  track : Bool
  warnings : Nat

/-- One step of `calculate_managed_tasks`'s second loop: `del` the drained
uuid (counting it finished), or log the duplicate-completion warning on
`KeyError`. -/
def calcStep (acc : Worker) (u : String) : Worker :=
  if containsKey u acc.managed_tasks then
    { acc with managed_tasks := eraseKey u acc.managed_tasks,
               messages_finished := acc.messages_finished + 1 }
  else
    { acc with warnings := acc.warnings + 1 }

/-- `PoolWorker.calculate_managed_tasks`: drain the completion queue fully
(non-blocking), then remove each drained correlation id from
`managed_tasks`.  A no-op for stateless workers. -/
def Worker.calculate (w : Worker) : Worker :=
  if w.track then w.finished.foldl calcStep { w with finished := [] } else w

/-- `PoolWorker.busy` (with the worker state after its reconciling drain):
at least one managed task remains. -/
def Worker.busy (w : Worker) : Worker × Bool :=
  let w1 := w.calculate
  (w1, decide (0 < w1.managed_tasks.length))

/-- `PoolWorker.idle`. -/
def Worker.idle (w : Worker) : Worker × Bool :=
  let p := w.busy
  (p.1, !p.2)

/-- `PoolWorker.current_task`: the least-recently inserted managed task, the
one executing right now; `none` for stateless or idle workers. -/
def Worker.currentTask (w : Worker) : Worker × Option Item :=
  if w.track then
    let w1 := w.calculate
    match w1.managed_tasks with
    | [] => (w1, none)
    | (_, it) :: _ => (w1, some it)
  else (w, none)

/-- `PoolWorker.orphaned_tasks`: for a dead tracked worker, the error
callbacks of the task that was executing (when it is a real dict, not a
sentinel), followed by the drain of its inbound queue with `'QUIT'`
sentinels excluded.  The inbound queue is left empty. -/
def Worker.orphanedTasks (w : Worker) : Worker × List Item :=
  if !w.track then (w, [])
  else if w.alive then (w, [])
  else
    let p := w.currentTask
    let fromCb : List Item :=
      match p.2 with
      | some (Item.dict m) => m.errbacks.map Item.dict
      | _ => []
    let kept := p.1.queue.filter (fun it => !it.isQuit)
    ({ p.1 with queue := [] }, fromCb ++ kept)

/-- Result of `queue.put(body, block=True, timeout=5)`: enqueued, or
`QueueFull` raised after the timeout. -/
inductive PutRes where
  | ok : PutRes
  | full : PutRes

/-- `PoolWorker.put`: attach a fresh correlation id to a dict lacking one,
record the message in `managed_tasks` (tracked workers) before the enqueue,
then enqueue with a bounded-timeout put; on success bump `messages_sent` and
reconcile.  `QueueFull` propagates to the caller with the record retained. -/
def Worker.put (w : Worker) (body : Item) (e : Env) : Worker × Item × Env × PutRes :=
  let t : Item × String × Env :=
    match body with
    | Item.dict m =>
      if needsUuid m then
        let f := e.fresh
        (Item.dict { m with uuid := some f.1 }, f.1, f.2)
      else
        (Item.dict m, m.uuid.getD "", e)
    | b => (b, "?", e)
  let w1 := if w.track then { w with managed_tasks := setOD t.2.1 t.1 w.managed_tasks } else w
  if w1.queue.length < w1.cap then
    let w2 := { w1 with queue := w1.queue ++ [t.1], messages_sent := w1.messages_sent + 1 }
    (w2.calculate, t.1, t.2.2, PutRes.ok)
  else
    (w1, t.1, t.2.2, PutRes.full)

/-- Result of `PoolWorker.quit`'s `self.queue.put('QUIT')`: an unbounded
blocking put, so it either enqueues the sentinel or blocks the caller. -/
inductive QuitRes where
  | done : Worker → QuitRes
  | blocked : QuitRes

/-- `PoolWorker.quit`. -/
def Worker.quit (w : Worker) : QuitRes :=
  if w.queue.length < w.cap then
    QuitRes.done { w with queue := w.queue ++ [Item.quit] }
  else
    QuitRes.blocked

example : needsUuid ⟨none, none, [], none, none, [], 0⟩ = true := by decide

/-- `WorkerPool` / `AutoscalePool` state.  `stateful` selects `pool_cls`
(`PoolWorker` vs `StatefulPoolWorker`); `next_pid` models the OS handing out
distinct pids to forked children. -/
structure Pool where
  min_workers : Nat
  queue_size : Nat
  max_workers : Nat
  task_manager_timeout : Nat
  scale_up_ct : Nat
  worker_count_max : Nat
  next_pid : Nat
  stateful : Bool
  workers : List Worker

/-- `AutoscalePool.__init__`'s computation of the worker ceiling:
the explicit `max_workers` argument when given, otherwise the
memory-capacity-derived fork count plus the magic 7 headroom workers; in
either case clamped so it is never below `min_workers`. -/
def autoscaleMaxWorkers (mn : Nat) (explicitMax : Option Nat) (memCap : Nat) : Nat :=
  let base :=
    match explicitMax with
    | some m => m
    | none => memCap + 7
  max mn base

/-- `WorkerPool.up`: close shared connections (external), create a worker
bound to the next index, append it, then `start()` it - a fork failure is
logged and leaves the appended handle non-alive.  Returns the index. -/
def Pool.baseUp (p : Pool) (forkOk : Bool) : Pool × Nat :=
  let idx := p.workers.length
  let w : Worker :=
    { messages_sent := 0, messages_finished := 0, managed_tasks := [],
      finished := [], queue := [], cap := p.queue_size, alive := forkOk,
      pid := p.next_pid, track := p.stateful, warnings := 0 }
  ({ p with workers := p.workers ++ [w], next_pid := p.next_pid + 1 }, idx)

/-- `AutoscalePool.full`. -/
def Pool.full (p : Pool) : Bool := p.workers.length == p.max_workers

/-- `AutoscalePool.should_grow` (with the pool state after every worker's
reconciling drain): fewer than `min_workers` handles, or every handle busy. -/
def Pool.shouldGrow (p : Pool) : Pool × Bool :=
  if p.workers.length < p.min_workers then (p, true)
  else
    let pairs := p.workers.map Worker.busy
    ({ p with workers := pairs.map Prod.fst }, pairs.all Prod.snd)

/-- `AutoscalePool.up`: when full, return a uniformly-random existing handle
instead of growing (`random.choice` on an empty pool raises, hence `none`);
otherwise count the scale-up, delegate to the base `up` and track the
high-water worker count. -/
def Pool.upA (p : Pool) (e : Env) : Option (Pool × Env × Nat) :=
  if p.full then
    match p.workers.length with
    | 0 => none
    | Nat.succ n =>
      let d := e.next
      some (p, d.2, d.1 % Nat.succ n)
  else
    let f := e.nextFork
    let pr := p.baseUp f.1
    let p1 : Pool := { pr.1 with scale_up_ct := pr.1.scale_up_ct + 1 }
    let p2 : Pool :=
      if p1.worker_count_max < p1.workers.length then
        { p1 with worker_count_max := p1.workers.length }
      else p1
    some (p2, f.2, pr.2)

/-- The attempt order of `WorkerPool.write`: the preferred index first, then
the remaining indices ascending (`sorted(range(n), key=...)`). -/
def writeOrder (n pref : Nat) : List Nat :=
  if pref < n then pref :: (List.range n).filter (fun i => i != pref)
  else List.range n

/-- The attempt loop of `WorkerPool.write`: try each index in order, the
first enqueue that does not raise `QueueFull` wins; the (possibly mutated)
message is carried from attempt to attempt, exactly as the shared dict is in
the source.  Returns the winning index, or `none` with an error logged. -/
def baseWriteGo (p : Pool) (order : List Nat) (body : Item) (e : Env) :
    Pool × Env × Option Nat :=
  match order with
  | [] => (p, e, none)
  | i :: rest =>
    match p.workers[i]? with
    | none => baseWriteGo p rest body e
    | some w =>
      let q := w.put body e
      let p1 := { p with workers := p.workers.set i q.1 }
      match q.2.2.2 with
      | PutRes.ok => (p1, q.2.2.1, some i)
      | PutRes.full => baseWriteGo p1 rest q.2.1 q.2.2.1

/-- `WorkerPool.write`. -/
def Pool.baseWrite (p : Pool) (pref : Nat) (body : Item) (e : Env) :
    Pool × Env × Option Nat :=
  baseWriteGo p (writeOrder p.workers.length pref) body e

/-- `AutoscalePool.add_bind_kwargs`: pop `bind_kwargs`; the injected kwargs
values are opaque payload here, but building the `worker_tasks` snapshot
reconciles every worker, which is the state effect this model keeps. -/
def Pool.addBindKwargs (p : Pool) (m : Msg) : Pool × Msg :=
  let m1 := { m with bindKw := [] }
  let p1 :=
    if m.bindKw.contains "worker_tasks" then
      { p with workers := p.workers.map Worker.calculate }
    else p
  (p1, m1)

/-- The `isinstance(body, dict) and body.get('bind_kwargs')` step at the top
of `AutoscalePool.write`. -/
def Pool.writeBindStep (p : Pool) (body : Item) : Pool × Item :=
  match body with
  | Item.dict m =>
    if !m.bindKw.isEmpty then
      let pr := p.addBindKwargs m
      (pr.1, Item.dict pr.2)
    else (p, body)
  | _ => (p, body)

/-- The claim-first-non-busy loop of `AutoscalePool.write` over the shuffled
index order.  A successful enqueue breaks (the overridden `write` returns
`None`); `QueueFull` escapes to the method's top-level handler, which
refreshes connections, logs and returns - the message is dropped but the
pre-raise mutations (the `managed_tasks` record) are kept.  When no worker
is non-busy, fall back to the ordered base `write`. -/
def writeALoop (p : Pool) (order : List Nat) (body : Item) (pref : Nat) (e : Env) :
    Pool × Env × Option Nat :=
  match order with
  | [] => p.baseWrite pref body e
  | i :: rest =>
    match p.workers[i]? with
    | none => writeALoop p rest body pref e
    | some w =>
      let wb := w.busy
      let p1 := { p with workers := p.workers.set i wb.1 }
      if wb.2 then writeALoop p1 rest body pref e
      else
        let q := wb.1.put body e
        (({ p1 with workers := p1.workers.set i q.1 } : Pool), q.2.2.1, none)

/-- `AutoscalePool.write`: handle `bind_kwargs`, grow when `should_grow`
(an exception inside that `up()` is caught by the method's top-level handler
and ends the call), then shuffle the handles and deliver to the first
non-busy one, falling back to the base ordered `write`. -/
def Pool.writeA (p : Pool) (pref : Nat) (body : Item) (e : Env) :
    Pool × Env × Option Nat :=
  let pb := p.writeBindStep body
  let ps := pb.1.shouldGrow
  let stepUp : Option (Pool × Env) :=
    if ps.2 then (ps.1.upA e).map (fun x => (x.1, x.2.1)) else some (ps.1, e)
  match stepUp with
  | none => (ps.1, e, none)
  | some (p3, e2) =>
    let n := p3.workers.length
    let draws := e2.rand.take n
    let e3 : Env := { e2 with rand := e2.rand.drop n }
    writeALoop p3 (shuffleWith draws (List.range n)) pb.2 pref e3

/-- The task-name suffixes of "management tasks" watched by the stuck-task
check in `AutoscalePool.cleanup`. -/
def managerEndings : List String :=
  ["tasks.task_manager", "tasks.dependency_manager", "tasks.workflow_manager"]

/-- The `if w.alive:` stuck-task block of `AutoscalePool.cleanup`: when the
current task is a management task, stamp `started` on first observation,
record its `age`, and past the timeout send `SIGUSR1` (an external signal,
no dispatcher-state effect).  The current task's correlation id is its key
in `managed_tasks`, as `put` guarantees. -/
def Worker.stuckCheck (w : Worker) (now : Nat) : Worker :=
  let p := w.currentTask
  match p.2 with
  | some (Item.dict m) =>
    let nm := m.task.getD ""
    if managerEndings.any (fun s => nm.endsWith s) then
      let st := m.started.getD now
      let m1 := { m with started := some st, age := some (now - st) }
      { p.1 with managed_tasks := setOD (m.uuid.getD "?") (Item.dict m1) p.1.managed_tasks }
    else p.1
  | _ => p.1

/-- The per-handle pass of `AutoscalePool.cleanup`, iterating the snapshot
`self.workers[::]` while the live list evolves.  The live list is always
`retained ++ (current :: rest)`; a removal drops the current handle.
Dead handle: reap its current real task via the job store (external, errors
caught), collect `orphaned_tasks`, remove.  Alive idle handle while more
than `min_workers` remain: `quit()` (whose unbounded blocking put may block
the whole pass - `none`) and remove; removed-but-alive handles still pass
through the stuck-task block, whose effects on them are no longer visible
to the pool, so they are recorded as-is in the ghost `down` output.
Otherwise retain the handle after the stuck-task block. -/
def cleanupPass (mn now : Nat) (retained rest : List Worker)
    (orphans : List Item) (down : List Worker) :
    Option (List Worker × List Item × List Worker) :=
  match rest with
  | [] => some (retained, orphans, down)
  | w :: rest' =>
    if !w.alive then
      let c := w.currentTask
      let o := c.1.orphanedTasks
      cleanupPass mn now retained rest' (orphans ++ o.2) down
    else
      let wb := w.busy
      if !wb.2 && decide (retained.length + rest'.length + 1 > mn) then
        match wb.1.quit with
        | QuitRes.blocked => none
        | QuitRes.done w2 => cleanupPass mn now retained rest' orphans (down ++ [w2])
      else
        cleanupPass mn now (retained ++ [wb.1.stuckCheck now]) rest' orphans down

/-- The redelivery loop after the pass: for each orphaned message, force one
`up()` if the pool is empty, pick a uniformly-random index with
`random.choice` (which raises on an empty range - `none`, an uncaught crash
of `cleanup`), and submit the message through the pool's own `write`. -/
def redeliver (orphans : List Item) (p : Pool) (e : Env) : Option (Pool × Env) :=
  match orphans with
  | [] => some (p, e)
  | m :: rest =>
    let step1 : Option (Pool × Env) :=
      if p.workers.length == 0 then (p.upA e).map (fun x => (x.1, x.2.1))
      else some (p, e)
    match step1 with
    | none => none
    | some (p1, e1) =>
      match p1.workers.length with
      | 0 => none
      | Nat.succ k =>
        let d := e1.next
        let wr := p1.writeA (d.1 % Nat.succ k) m d.2
        redeliver rest wr.1 wr.2.1

/-- Outcome of one `AutoscalePool.cleanup` call: it settles with the new
pool state (plus the ghost list of scaled-down handles), blocks forever in
a `quit()` on a full queue, or crashes in redelivery's `random.choice`. -/
inductive CleanupRes where
  | ok : Pool → Env → List Worker → CleanupRes
  | blocked : CleanupRes
  | crashed : CleanupRes

/-- `AutoscalePool.cleanup`. -/
def Pool.cleanup (p : Pool) (e : Env) (now : Nat) : CleanupRes :=
  match cleanupPass p.min_workers now [] p.workers [] [] with
  | none => CleanupRes.blocked
  | some (fin, orph, down) =>
    match redeliver orph { p with workers := fin } e with
    | none => CleanupRes.crashed
    | some (p1, e1) => CleanupRes.ok p1 e1 down

/-- The loop of `WorkerPool.stop`: `os.kill` each handle's process in order
inside a single `try`, so the first failure is logged once and ends the
loop.  `killOk` is the oracle for whether signalling a given pid succeeds.
Returns the pids actually signalled and whether a failure was logged. -/
def stopLoop (ws : List Worker) (killOk : Nat → Bool) : List Nat × Bool :=
  match ws with
  | [] => ([], false)
  | w :: t =>
    if killOk w.pid then
      let r := stopLoop t killOk
      (w.pid :: r.1, r.2)
    else ([], true)

/-- `WorkerPool.stop` (the signal number itself is absorbed into the
`killOk` oracle). -/
def Pool.stop (p : Pool) (killOk : Nat → Bool) : List Nat × Bool :=
  stopLoop p.workers killOk

/-- `WorkerPool.init_workers`'s loop: `up()` (the autoscale override)
`min_workers` times. -/
def initLoop : Nat → Pool → Env → Option (Pool × Env)
  | 0, p, e => some (p, e)
  | Nat.succ n, p, e =>
    match p.upA e with
    | none => none
    | some (p1, e1, _) => initLoop n p1 e1

/-- An `AutoscalePool` as constructed and then initialized: ceiling from
`autoscaleMaxWorkers`, counters zeroed, then `min_workers` calls to `up()`. -/
def initPool (mn qs : Nat) (explicitMax : Option Nat) (memCap tmo : Nat) (e : Env) :
    Option (Pool × Env) :=
  initLoop mn
    { min_workers := mn, queue_size := qs,
      max_workers := autoscaleMaxWorkers mn explicitMax memCap,
      task_manager_timeout := tmo, scale_up_ct := 0, worker_count_max := 0,
      next_pid := 100, stateful := true, workers := [] } e

/-- Environment action: the worker process at index `i` exits (crash or
otherwise), so `is_alive()` turns false. -/
def Pool.die (p : Pool) (i : Nat) : Pool :=
  match p.workers[i]? with
  | some w => { p with workers := p.workers.set i { w with alive := false } }
  | none => p

/-! Spec-side characterizations (these two follow the specification's
words, for comparison against the code model) and pure views used to state
theorems. -/

/-- Pure view of the reconciling drain: the `managed_tasks` left after
removing each drained completion id in order. -/
def applyFinished (fin : List String) (mt : List (String × Item)) :
    List (String × Item) :=
  fin.foldl (fun acc u => eraseKey u acc) mt

/-- Pure view of `busy`: some managed task survives the reconciling drain. -/
def busyPure (w : Worker) : Bool :=
  if w.track then decide (0 < (applyFinished w.finished w.managed_tasks).length)
  else decide (0 < w.managed_tasks.length)

/-- `should_grow` as the specification words it: fewer than `min_workers`
handles, or every LIVE handle busy (dead handles exempt). -/
def shouldGrowPerSpec (p : Pool) : Bool :=
  decide (p.workers.length < p.min_workers) ||
    p.workers.all (fun w => !w.alive || busyPure w)

/-- `stop` as the specification words it: every handle whose signal succeeds
is signalled, failures are logged per-handle without aborting the loop. -/
def stopPerSpec (ws : List Worker) (killOk : Nat → Bool) : List Nat :=
  (ws.filter (fun w => killOk w.pid)).map (fun w => w.pid)

/-! Concrete scenario states used by the counterexamples and witnesses. -/

/-- A dict message carrying just a correlation id. -/
def mkMsg (u : String) : Msg := ⟨some u, none, [], none, none, [], 0⟩

/-- An alive, idle, tracked worker with empty queues. -/
def mkIdle (pid cap : Nat) : Worker :=
  { messages_sent := 0, messages_finished := 0, managed_tasks := [],
    finished := [], queue := [], cap := cap, alive := true, pid := pid,
    track := true, warnings := 0 }

/-- The C6 scenario: `min_workers = 2` and four alive idle handles. -/
def c6pool : Pool :=
  { min_workers := 2, queue_size := 10, max_workers := 10,
    task_manager_timeout := 0, scale_up_ct := 0, worker_count_max := 0,
    next_pid := 100, stateful := true,
    workers := [mkIdle 1 10, mkIdle 2 10, mkIdle 3 10, mkIdle 4 10] }

/-- A pool sitting exactly at its floor: two alive idle handles, floor 2. -/
def c6small : Pool :=
  { min_workers := 2, queue_size := 10, max_workers := 10,
    task_manager_timeout := 0, scale_up_ct := 0, worker_count_max := 0,
    next_pid := 100, stateful := true, workers := [mkIdle 1 10, mkIdle 2 10] }

/-- A one-worker pool with `min_workers = max_workers = 1`. -/
def pW : Pool :=
  { min_workers := 1, queue_size := 10, max_workers := 1,
    task_manager_timeout := 0, scale_up_ct := 0, worker_count_max := 0,
    next_pid := 100, stateful := true, workers := [mkIdle 1 10] }

/-- The C2 executing task's failure-callback descriptor (opaque payload d). -/
def c2eb (d : Nat) : Msg := ⟨some "e1", none, [], none, none, [], d⟩

/-- The C2 executing task: real work carrying one failure callback. -/
def c2m1 (a d : Nat) : Msg := ⟨some "u1", none, [c2eb d], none, none, [], a⟩

/-- The first C2 queued task. -/
def c2m2 (b : Nat) : Msg := ⟨some "u2", none, [], none, none, [], b⟩

/-- The second C2 queued task. -/
def c2m3 (c : Nat) : Msg := ⟨some "u3", none, [], none, none, [], c⟩

/-- The C2 dead stateful handle: its process exited while `u1` was
executing (front of `managed_tasks`) and `u2`, `u3` were still queued. -/
def c2dead (a b c d : Nat) : Worker :=
  { messages_sent := 3, messages_finished := 0,
    managed_tasks := [("u1", Item.dict (c2m1 a d)), ("u2", Item.dict (c2m2 b)),
                      ("u3", Item.dict (c2m3 c))],
    finished := [], queue := [Item.dict (c2m2 b), Item.dict (c2m3 c)],
    cap := 10, alive := false, pid := 7, track := true, warnings := 0 }

/-- A busy survivor handle (it holds one executing task). -/
def busyLive (pid : Nat) : Worker :=
  { messages_sent := 1, messages_finished := 0,
    managed_tasks := [("b1", Item.dict (mkMsg "b1"))], finished := [],
    queue := [], cap := 10, alive := true, pid := pid, track := true,
    warnings := 0 }

/-- The C2 pool: the dead handle plus one busy survivor. -/
def c2pool (a b c d : Nat) : Pool :=
  { min_workers := 1, queue_size := 10, max_workers := 10,
    task_manager_timeout := 0, scale_up_ct := 0, worker_count_max := 0,
    next_pid := 100, stateful := true, workers := [c2dead a b c d, busyLive 99] }

/-- The C5 orphaned message. -/
def c5msg : Msg := ⟨some "o1", none, [], none, none, [], 0⟩

/-- The C5 dead handle: one pending message still in its inbound queue. -/
def c5dead : Worker :=
  { messages_sent := 1, messages_finished := 0,
    managed_tasks := [("o1", Item.dict c5msg)], finished := [],
    queue := [Item.dict c5msg], cap := 10, alive := false, pid := 7,
    track := true, warnings := 0 }

/-- The C5 pool: the dead handle plus one busy survivor. -/
def c5pool : Pool :=
  { min_workers := 1, queue_size := 10, max_workers := 10,
    task_manager_timeout := 0, scale_up_ct := 0, worker_count_max := 0,
    next_pid := 100, stateful := true, workers := [c5dead, busyLive 11] }

/-- The C7 counterexample pool: one dead idle handle next to an alive busy
one. -/
def c7pool : Pool :=
  { min_workers := 1, queue_size := 10, max_workers := 10,
    task_manager_timeout := 0, scale_up_ct := 0, worker_count_max := 0,
    next_pid := 100, stateful := true,
    workers := [{ mkIdle 1 10 with alive := false }, busyLive 2] }

/-- Two handles for the C3 counterexample; signalling pid 1 fails, pid 2
would succeed. -/
def c3w1 : Worker := mkIdle 1 10

def c3w2 : Worker := mkIdle 2 10

def c3pool : Pool :=
  { min_workers := 2, queue_size := 10, max_workers := 10,
    task_manager_timeout := 0, scale_up_ct := 0, worker_count_max := 0,
    next_pid := 100, stateful := true, workers := [c3w1, c3w2] }

def c3k : Nat → Bool := fun p => p == 2

/-- A worker whose inbound queue is exactly full (capacity 1, one entry). -/
def c4full : Worker :=
  { messages_sent := 1, messages_finished := 0,
    managed_tasks := [("x1", Item.dict (mkMsg "x1"))], finished := [],
    queue := [Item.dict (mkMsg "x1")], cap := 1, alive := true, pid := 3,
    track := true, warnings := 0 }

/-! Helper lemmas about the worker operations. -/

theorem eraseKey_of_not_contains (u : String) (l : List (String × Item))
    (h : containsKey u l = false) : eraseKey u l = l := by
  induction l with
  | nil => rfl
  | cons kv t ih =>
    obtain ⟨k', v'⟩ := kv
    simp only [containsKey, List.any_cons, Bool.or_eq_false_iff] at h
    simp only [eraseKey, h.1, if_neg]
    rw [ih]
    · simp [h.1]
    · exact h.2

theorem calcStep_managed (a : Worker) (u : String) :
    (calcStep a u).managed_tasks = eraseKey u a.managed_tasks := by
  unfold calcStep
  split
  · rfl
  · rename_i h
    rw [eraseKey_of_not_contains u _ (by simpa using h)]

theorem calcStep_pid (a : Worker) (u : String) : (calcStep a u).pid = a.pid := by
  unfold calcStep; split <;> rfl

theorem calcStep_queue (a : Worker) (u : String) : (calcStep a u).queue = a.queue := by
  unfold calcStep; split <;> rfl

theorem calcStep_track (a : Worker) (u : String) : (calcStep a u).track = a.track := by
  unfold calcStep; split <;> rfl

theorem calcStep_alive (a : Worker) (u : String) : (calcStep a u).alive = a.alive := by
  unfold calcStep; split <;> rfl

theorem foldl_calcStep_pid (l : List String) (a : Worker) :
    (l.foldl calcStep a).pid = a.pid := by
  induction l generalizing a with
  | nil => rfl
  | cons u t ih => rw [List.foldl_cons, ih, calcStep_pid]

theorem foldl_calcStep_queue (l : List String) (a : Worker) :
    (l.foldl calcStep a).queue = a.queue := by
  induction l generalizing a with
  | nil => rfl
  | cons u t ih => rw [List.foldl_cons, ih, calcStep_queue]

theorem foldl_calcStep_managed (l : List String) (a : Worker) :
    (l.foldl calcStep a).managed_tasks = applyFinished l a.managed_tasks := by
  induction l generalizing a with
  | nil => rfl
  | cons u t ih =>
    rw [List.foldl_cons, ih, calcStep_managed]
    simp [applyFinished, List.foldl_cons]

theorem calculate_pid (w : Worker) : (Worker.calculate w).pid = w.pid := by
  unfold Worker.calculate
  split
  · rw [foldl_calcStep_pid]
  · rfl

theorem calculate_queue (w : Worker) : (Worker.calculate w).queue = w.queue := by
  unfold Worker.calculate
  split
  · rw [foldl_calcStep_queue]
  · rfl

theorem calculate_managed (w : Worker) :
    (Worker.calculate w).managed_tasks =
      (if w.track then applyFinished w.finished w.managed_tasks else w.managed_tasks) := by
  unfold Worker.calculate
  split
  · rw [foldl_calcStep_managed]
  · rfl

theorem busy_fst_pid (w : Worker) : ((Worker.busy w).1).pid = w.pid := calculate_pid w

theorem busy_snd (w : Worker) : (Worker.busy w).2 = busyPure w := by
  show decide (0 < (Worker.calculate w).managed_tasks.length) = busyPure w
  rw [calculate_managed]
  unfold busyPure
  split <;> rfl

theorem currentTask_fst (w : Worker) :
    (Worker.currentTask w).1 = (if w.track then Worker.calculate w else w) := by
  unfold Worker.currentTask
  split <;> rename_i h
  · cases hm : (Worker.calculate w).managed_tasks with
    | nil => simp [hm, h]
    | cons kv t =>
      obtain ⟨k, v⟩ := kv
      simp [hm, h]
  · simp [h]

theorem currentTask_pid (w : Worker) : ((Worker.currentTask w).1).pid = w.pid := by
  rw [currentTask_fst]
  split
  · exact calculate_pid w
  · rfl

theorem stuckCheck_pid (w : Worker) (now : Nat) :
    (Worker.stuckCheck w now).pid = w.pid := by
  unfold Worker.stuckCheck
  cases hc : (Worker.currentTask w).2 with
  | none => simp only [hc]; exact currentTask_pid w
  | some it =>
    cases it with
    | quit => simp only [hc]; exact currentTask_pid w
    | dict m =>
      simp only [hc]
      split
      · simpa using currentTask_pid w
      · exact currentTask_pid w

/-! Helper lemmas about `shuffleWith` and `stopLoop`. -/

theorem shuffleWith_nil_right (rs : List Nat) : shuffleWith rs ([] : List α) = [] := by
  cases rs <;> rfl

theorem shuffleWith_single (rs : List Nat) (x : α) : shuffleWith rs [x] = [x] := by
  cases rs with
  | nil => rfl
  | cons r t => simp [shuffleWith, Nat.mod_one, shuffleWith_nil_right]

theorem shuffleWith_pair (ds : List Nat) (x y : α) :
    shuffleWith ds [x, y] = [x, y] ∨ shuffleWith ds [x, y] = [y, x] := by
  cases ds with
  | nil => exact Or.inl rfl
  | cons r t =>
    rcases Nat.mod_two_eq_zero_or_one r with h | h
    · left
      simp [shuffleWith, h, shuffleWith_single]
    · right
      simp [shuffleWith, h, shuffleWith_single]

theorem stopLoop_eq (ws : List Worker) (k : Nat → Bool) :
    stopLoop ws k =
      ((ws.takeWhile (fun w => k w.pid)).map (fun w => w.pid),
       !ws.all (fun w => k w.pid)) := by
  induction ws with
  | nil => rfl
  | cons w t ih =>
    by_cases h : k w.pid
    · simp [stopLoop, h, ih, List.takeWhile_cons, List.all_cons]
    · simp [stopLoop, h, List.takeWhile_cons, List.all_cons]

theorem all_snd_map_busy (l : List Worker) :
    ((l.map Worker.busy).all Prod.snd) = l.all busyPure := by
  induction l with
  | nil => rfl
  | cons w t ih => simp [List.all_cons, ih, busy_snd]

theorem shouldGrow_snd (p : Pool) :
    (Pool.shouldGrow p).2 =
      (decide (p.workers.length < p.min_workers) || p.workers.all busyPure) := by
  by_cases h : p.workers.length < p.min_workers
  · have h1 : (Pool.shouldGrow p).2 = true := by
      unfold Pool.shouldGrow
      rw [if_pos h]
    rw [h1]
    simp [h]
  · have h1 : (Pool.shouldGrow p).2 = (p.workers.map Worker.busy).all Prod.snd := by
      unfold Pool.shouldGrow
      rw [if_neg h]
    rw [h1, all_snd_map_busy]
    simp [h]

/-! Helper lemmas about the pool operations. -/

theorem upA_spec (p : Pool) (e : Env) (p1 : Pool) (e1 : Env) (i : Nat)
    (h : Pool.upA p e = some (p1, e1, i)) :
    p1.min_workers = p.min_workers ∧ p1.max_workers = p.max_workers ∧
    p.workers.length ≤ p1.workers.length ∧
    (p.workers.length ≤ p.max_workers → p1.workers.length ≤ p.max_workers) := by
  unfold Pool.upA at h
  cases hf : p.full with
  | true =>
    rw [hf] at h
    simp only [if_true] at h
    cases hw : p.workers.length with
    | zero => rw [hw] at h; exact absurd h (by simp)
    | succ n =>
      rw [hw] at h
      simp only [Option.some.injEq, Prod.mk.injEq] at h
      obtain ⟨hp, -⟩ := h
      subst hp
      rw [hw]
      exact ⟨rfl, rfl, Nat.le_refl _, fun hh => hh⟩
  | false =>
    rw [hf] at h
    have hne : p.workers.length ≠ p.max_workers := by
      simpa [Pool.full] using hf
    simp only [Bool.false_eq_true, if_false, Option.some.injEq, Prod.mk.injEq] at h
    obtain ⟨h1, -⟩ := h
    rw [← h1]
    refine ⟨?_, ?_, ?_, ?_⟩
    · split <;> rfl
    · split <;> rfl
    · split <;> simp [Pool.baseUp]
    · intro hle
      have hlt : p.workers.length < p.max_workers := Nat.lt_of_le_of_ne hle hne
      split <;> simp [Pool.baseUp] <;> omega

theorem bindStep_len (p : Pool) (body : Item) :
    (p.writeBindStep body).1.workers.length = p.workers.length := by
  unfold Pool.writeBindStep Pool.addBindKwargs
  cases body with
  | quit => rfl
  | dict m =>
    simp only []
    split
    · split <;> simp
    · rfl

theorem bindStep_min (p : Pool) (body : Item) :
    (p.writeBindStep body).1.min_workers = p.min_workers := by
  unfold Pool.writeBindStep Pool.addBindKwargs
  cases body with
  | quit => rfl
  | dict m =>
    simp only []
    split
    · split <;> rfl
    · rfl

theorem bindStep_max (p : Pool) (body : Item) :
    (p.writeBindStep body).1.max_workers = p.max_workers := by
  unfold Pool.writeBindStep Pool.addBindKwargs
  cases body with
  | quit => rfl
  | dict m =>
    simp only []
    split
    · split <;> rfl
    · rfl

theorem shouldGrow_len (p : Pool) :
    ((Pool.shouldGrow p).1).workers.length = p.workers.length := by
  unfold Pool.shouldGrow
  split
  · rfl
  · simp

theorem shouldGrow_min (p : Pool) :
    ((Pool.shouldGrow p).1).min_workers = p.min_workers := by
  unfold Pool.shouldGrow
  split <;> rfl

theorem shouldGrow_max (p : Pool) :
    ((Pool.shouldGrow p).1).max_workers = p.max_workers := by
  unfold Pool.shouldGrow
  split <;> rfl

theorem baseWriteGo_preserve (order : List Nat) (p : Pool) (body : Item) (e : Env) :
    (baseWriteGo p order body e).1.workers.length = p.workers.length ∧
    (baseWriteGo p order body e).1.min_workers = p.min_workers ∧
    (baseWriteGo p order body e).1.max_workers = p.max_workers := by
  induction order generalizing p body e with
  | nil => exact ⟨rfl, rfl, rfl⟩
  | cons i rest ih =>
    unfold baseWriteGo
    cases hg : p.workers[i]? with
    | none => simp only [hg]; exact ih p body e
    | some w =>
      simp only [hg]
      cases hr : ((w.put body e).2.2.2) with
      | ok => simp [hr]
      | full =>
        simp only [hr]
        have h2 := ih { p with workers := p.workers.set i (w.put body e).1 }
          (w.put body e).2.1 (w.put body e).2.2.1
        simpa using h2

theorem writeALoop_preserve (order : List Nat) (p : Pool) (body : Item) (pref : Nat) (e : Env) :
    (writeALoop p order body pref e).1.workers.length = p.workers.length ∧
    (writeALoop p order body pref e).1.min_workers = p.min_workers ∧
    (writeALoop p order body pref e).1.max_workers = p.max_workers := by
  induction order generalizing p body e with
  | nil =>
    unfold writeALoop Pool.baseWrite
    exact baseWriteGo_preserve _ p body e
  | cons i rest ih =>
    unfold writeALoop
    cases hg : p.workers[i]? with
    | none => simp only [hg]; exact ih p body e
    | some w =>
      simp only [hg]
      cases hb : (w.busy).2 with
      | true =>
        simp only [hb, if_true]
        have h2 := ih { p with workers := p.workers.set i (w.busy).1 } body e
        simpa using h2
      | false =>
        simp [hb]

theorem writeALoop_len (order : List Nat) (p : Pool) (body : Item) (pref : Nat) (e : Env) :
    (writeALoop p order body pref e).1.workers.length = p.workers.length :=
  (writeALoop_preserve order p body pref e).1

theorem writeALoop_min (order : List Nat) (p : Pool) (body : Item) (pref : Nat) (e : Env) :
    (writeALoop p order body pref e).1.min_workers = p.min_workers :=
  (writeALoop_preserve order p body pref e).2.1

theorem writeALoop_max (order : List Nat) (p : Pool) (body : Item) (pref : Nat) (e : Env) :
    (writeALoop p order body pref e).1.max_workers = p.max_workers :=
  (writeALoop_preserve order p body pref e).2.2

theorem writeA_spec (p : Pool) (pref : Nat) (body : Item) (e : Env) :
    (p.writeA pref body e).1.min_workers = p.min_workers ∧
    (p.writeA pref body e).1.max_workers = p.max_workers ∧
    p.workers.length ≤ (p.writeA pref body e).1.workers.length ∧
    (p.workers.length ≤ p.max_workers →
      (p.writeA pref body e).1.workers.length ≤ p.max_workers) := by
  unfold Pool.writeA
  simp only []
  cases hsg : (Pool.shouldGrow (p.writeBindStep body).1).2 with
  | false =>
    simp only [hsg, Bool.false_eq_true, if_false]
    rw [writeALoop_len, writeALoop_min, writeALoop_max, shouldGrow_len, shouldGrow_min,
      shouldGrow_max, bindStep_len, bindStep_min, bindStep_max]
    exact ⟨rfl, rfl, Nat.le_refl _, fun hh => hh⟩
  | true =>
    simp only [hsg, if_true]
    cases hup : Pool.upA (Pool.shouldGrow (p.writeBindStep body).1).1 e with
    | none =>
      simp only [Option.map_none']
      rw [shouldGrow_len, shouldGrow_min, shouldGrow_max, bindStep_len, bindStep_min,
        bindStep_max]
      exact ⟨rfl, rfl, Nat.le_refl _, fun hh => hh⟩
    | some x =>
      obtain ⟨pu, eu, iu⟩ := x
      obtain ⟨hu1, hu2, hu3, hu4⟩ := upA_spec _ e pu eu iu hup
      simp only [shouldGrow_len, shouldGrow_min, shouldGrow_max, bindStep_len, bindStep_min,
        bindStep_max] at hu1 hu2 hu3 hu4
      simp only [Option.map_some']
      rw [writeALoop_len, writeALoop_min, writeALoop_max, hu1, hu2]
      exact ⟨rfl, rfl, hu3, hu4⟩

theorem cleanupPass_some_length (mn now : Nat) (rest : List Worker) :
    ∀ retained orphans down fin orph dn,
      cleanupPass mn now retained rest orphans down = some (fin, orph, dn) →
      fin.length ≤ retained.length + rest.length := by
  induction rest with
  | nil =>
    intro retained orphans down fin orph dn h
    simp only [cleanupPass, Option.some.injEq, Prod.mk.injEq] at h
    obtain ⟨h1, -⟩ := h
    rw [← h1]
    simp
  | cons w t ih =>
    intro retained orphans down fin orph dn h
    unfold cleanupPass at h
    cases ha : w.alive with
    | false =>
      rw [ha] at h
      simp only [Bool.not_false, if_true] at h
      have := ih retained _ down fin orph dn h
      simp only [List.length_cons]
      omega
    | true =>
      rw [ha] at h
      simp only [Bool.not_true, Bool.false_eq_true, if_false] at h
      cases hc : (!(w.busy).2 && decide (retained.length + t.length + 1 > mn)) with
      | true =>
        rw [hc] at h
        simp only [if_true] at h
        cases hq : Worker.quit (w.busy).1 with
        | blocked => rw [hq] at h; exact absurd h (by simp)
        | done w2 =>
          rw [hq] at h
          have := ih retained orphans _ fin orph dn h
          simp only [List.length_cons]
          omega
      | false =>
        rw [hc] at h
        simp only [Bool.false_eq_true, if_false] at h
        have := ih (retained ++ [Worker.stuckCheck (w.busy).1 now]) orphans down fin orph dn h
        simp only [List.length_append, List.length_cons, List.length_nil] at this ⊢
        omega

theorem cleanupPass_allAlive (mn now : Nat) (rest : List Worker) :
    ∀ retained orphans down,
      (∀ w ∈ rest, w.alive = true) →
      retained.length + rest.length ≤ mn →
      cleanupPass mn now retained rest orphans down =
        some (retained ++ rest.map (fun w => Worker.stuckCheck (Worker.busy w).1 now),
              orphans, down) := by
  induction rest with
  | nil =>
    intro retained orphans down _ _
    simp [cleanupPass]
  | cons w t ih =>
    intro retained orphans down hA hm
    have hw : w.alive = true := hA w (List.mem_cons_self w t)
    unfold cleanupPass
    rw [hw]
    simp only [Bool.not_true, Bool.false_eq_true, if_false]
    have hc : (!(w.busy).2 && decide (retained.length + t.length + 1 > mn)) = false := by
      have : ¬(retained.length + t.length + 1 > mn) := by
        simp only [List.length_cons] at hm
        omega
      simp [this]
    rw [hc]
    simp only [Bool.false_eq_true, if_false]
    rw [ih (retained ++ [Worker.stuckCheck (w.busy).1 now]) orphans down
      (fun x hx => hA x (List.mem_cons_of_mem w hx))
      (by simp only [List.length_append, List.length_cons, List.length_nil] at hm ⊢; omega)]
    simp [List.append_assoc]

theorem redeliver_spec (orphans : List Item) :
    ∀ p e p1 e1, redeliver orphans p e = some (p1, e1) →
      p1.min_workers = p.min_workers ∧ p1.max_workers = p.max_workers ∧
      (p.workers.length ≤ p.max_workers → p1.workers.length ≤ p.max_workers) := by
  induction orphans with
  | nil =>
    intro p e p1 e1 h
    simp only [redeliver, Option.some.injEq, Prod.mk.injEq] at h
    obtain ⟨h1, -⟩ := h
    rw [← h1]
    exact ⟨rfl, rfl, fun hh => hh⟩
  | cons m rest ih =>
    intro p e p1 e1 h
    unfold redeliver at h
    cases hz : (p.workers.length == 0) with
    | true =>
      rw [hz] at h
      simp only [if_true] at h
      cases hup : Pool.upA p e with
      | none => rw [hup] at h; exact absurd h (by simp)
      | some x =>
        obtain ⟨pu, eu, iu⟩ := x
        rw [hup] at h
        simp only [Option.map_some'] at h
        obtain ⟨hu1, hu2, -, hu4⟩ := upA_spec p e pu eu iu hup
        cases hl : pu.workers.length with
        | zero => rw [hl] at h; exact absurd h (by simp)
        | succ k =>
          rw [hl] at h
          have hw := writeA_spec pu ((Env.next eu).1 % Nat.succ k) m (Env.next eu).2
          obtain ⟨hw1, hw2, -, hw4⟩ := hw
          have hr := ih _ _ p1 e1 h
          obtain ⟨hr1, hr2, hr3⟩ := hr
          rw [hr1, hr2] at *
          refine ⟨by rw [hw1, hu1], by rw [hw2, hu2], ?_⟩
          intro hle
          have h0 : pu.workers.length ≤ pu.max_workers := by
            rw [hu2]
            exact hu4 hle
          have h1 : (pu.writeA ((Env.next eu).1 % Nat.succ k) m (Env.next eu).2).1.workers.length
              ≤ pu.max_workers := hw4 h0
          have h2 := hr3 (by rw [hw2]; exact h1)
          rw [hw2, hu2] at h2
          exact h2
    | false =>
      rw [hz] at h
      simp only [Bool.false_eq_true, if_false] at h
      cases hl : p.workers.length with
      | zero => simp [hl] at hz
      | succ k =>
        rw [hl] at h
        have hw := writeA_spec p ((Env.next e).1 % Nat.succ k) m (Env.next e).2
        obtain ⟨hw1, hw2, -, hw4⟩ := hw
        have hr := ih _ _ p1 e1 h
        obtain ⟨hr1, hr2, hr3⟩ := hr
        refine ⟨by rw [hr1, hw1], by rw [hr2, hw2], ?_⟩
        intro hle
        have h1 := hw4 (by rw [hl]; exact hle)
        have h2 := hr3 (by rw [hw2]; exact h1)
        rw [hw2] at h2
        exact h2

theorem cleanupPass_alive_lower (mn now : Nat) (rest : List Worker) :
    ∀ retained orphans down fin orph dn,
      (∀ w ∈ rest, w.alive = true) →
      cleanupPass mn now retained rest orphans down = some (fin, orph, dn) →
      orph = orphans ∧ (mn ≤ retained.length + rest.length → mn ≤ fin.length) := by
  induction rest with
  | nil =>
    intro retained orphans down fin orph dn _ h
    simp only [cleanupPass, Option.some.injEq, Prod.mk.injEq] at h
    obtain ⟨h1, h2, -⟩ := h
    subst h1
    subst h2
    exact ⟨rfl, by simp⟩
  | cons w t ih =>
    intro retained orphans down fin orph dn hA h
    have hw : w.alive = true := hA w (List.mem_cons_self w t)
    unfold cleanupPass at h
    rw [hw] at h
    simp only [Bool.not_true, Bool.false_eq_true, if_false] at h
    cases hcond : (!(w.busy).2 && decide (retained.length + t.length + 1 > mn)) with
    | true =>
      rw [hcond] at h
      simp only [if_true] at h
      cases hq : Worker.quit (w.busy).1 with
      | blocked => rw [hq] at h; exact absurd h (by simp)
      | done w2 =>
        rw [hq] at h
        obtain ⟨ho, hlen⟩ := ih retained orphans _ fin orph dn
          (fun x hx => hA x (List.mem_cons_of_mem w hx)) h
        refine ⟨ho, fun _ => ?_⟩
        have hgt : retained.length + t.length + 1 > mn := by
          have hb := hcond
          rw [Bool.and_eq_true] at hb
          exact of_decide_eq_true hb.2
        exact hlen (by omega)
    | false =>
      rw [hcond] at h
      simp only [Bool.false_eq_true, if_false] at h
      obtain ⟨ho, hlen⟩ := ih (retained ++ [Worker.stuckCheck (w.busy).1 now])
        orphans down fin orph dn (fun x hx => hA x (List.mem_cons_of_mem w hx)) h
      refine ⟨ho, fun hm => ?_⟩
      refine hlen ?_
      simp only [List.length_append, List.length_cons, List.length_nil] at hm ⊢
      omega

/-! The claims. -/

/-- C10: AutoscalePool construction clamps the worker ceiling to the floor:
after `__init__`, `max_workers >= min_workers` holds for every combination
of explicit `max_workers` argument and capacity-derived default, and a
caller-supplied ceiling below `min_workers` is silently raised to
`min_workers`. -/
theorem max_workers_clamped (mn memCap : Nat) (em : Option Nat) :
    mn ≤ autoscaleMaxWorkers mn em memCap ∧
    (∀ m, em = some m → m ≤ mn → autoscaleMaxWorkers mn em memCap = mn) := by
  constructor
  · exact Nat.le_max_left _ _
  · intro m hm hle
    subst hm
    unfold autoscaleMaxWorkers
    exact max_eq_left hle

theorem max_workers_clamped_witness :
    5 ≤ autoscaleMaxWorkers 5 (some 2) 0 ∧ autoscaleMaxWorkers 5 (some 2) 0 = 5 :=
  ⟨(max_workers_clamped 5 0 (some 2)).1,
   (max_workers_clamped 5 0 (some 2)).2 2 rfl (by decide)⟩

/-- C4 counterexample: the claim says `quit()` returns without waiting for
every queue state; but on a worker whose inbound queue is exactly full, the
sentinel enqueue is an unbounded blocking put, so the call blocks. -/
theorem quit_blocks_on_full_queue :
    Worker.quit c4full = QuitRes.blocked ∧ c4full.queue.length = c4full.cap :=
  ⟨rfl, rfl⟩

/-- C4 (amended): `quit()` enqueues the quit sentinel with a blocking put
that has no timeout: it returns at once exactly when the inbound queue has
free space, and blocks when the queue is full. -/
theorem quit_enqueue_or_block (w : Worker) :
    (w.queue.length < w.cap →
      Worker.quit w = QuitRes.done { w with queue := w.queue ++ [Item.quit] }) ∧
    (w.cap ≤ w.queue.length → Worker.quit w = QuitRes.blocked) := by
  constructor
  · intro h
    unfold Worker.quit
    rw [if_pos h]
  · intro h
    unfold Worker.quit
    rw [if_neg (by omega)]

theorem quit_enqueue_or_block_witness :
    Worker.quit (mkIdle 1 10) = QuitRes.done { mkIdle 1 10 with queue := [Item.quit] } ∧
    Worker.quit c4full = QuitRes.blocked :=
  ⟨(quit_enqueue_or_block (mkIdle 1 10)).1 (by decide),
   (quit_enqueue_or_block c4full).2 (by decide)⟩

/-- C3 counterexample: the claim says a signalling failure is logged
per-handle and does not abort the loop, so every remaining handle is still
signalled; but with two handles where signalling the first (pid 1) fails,
`stop` signals nobody and logs once, even though pid 2 could be signalled
(the per-spec behavior would still signal pid 2). -/
theorem stop_aborts_on_first_failure :
    Pool.stop c3pool c3k = ([], true) ∧ c3k c3w2.pid = true ∧
    stopPerSpec c3pool.workers c3k = [2] :=
  ⟨rfl, rfl, rfl⟩

/-- C3 (amended): `stop(signal)` signals the handles in order only up to
the first failure: the signalled pids are exactly the longest prefix on
which `os.kill` succeeds, the failure is logged once and ends the loop, and
when no failure occurs every handle is signalled with nothing logged. -/
theorem stop_signals_until_first_failure (ws : List Worker) (k : Nat → Bool) :
    stopLoop ws k =
      ((ws.takeWhile (fun w => k w.pid)).map (fun w => w.pid),
       !ws.all (fun w => k w.pid)) :=
  stopLoop_eq ws k

/-- C7 counterexample: the claim says `should_grow` is true iff
`len(workers) < min_workers` or every LIVE handle is busy; but on a pool at
its floor holding one dead idle handle and one alive busy handle, the code
returns false (it requires every handle, dead ones included, to be busy)
while the per-spec reading is true. -/
theorem should_grow_counts_dead_handles :
    (Pool.shouldGrow c7pool).2 = false ∧ shouldGrowPerSpec c7pool = true ∧
    c7pool.min_workers ≤ c7pool.workers.length :=
  ⟨rfl, rfl, by decide⟩

/-- C7 (amended): `should_grow` is true iff `len(workers) < min_workers`,
or every handle in the pool - alive or not - is busy after its reconciling
drain. -/
theorem should_grow_iff (p : Pool) :
    (Pool.shouldGrow p).2 =
      (decide (p.workers.length < p.min_workers) || p.workers.all busyPure) :=
  shouldGrow_snd p

theorem lookup_setOD (k : String) (v : Item) (l : List (String × Item)) :
    lookupOD k (setOD k v l) = some v := by
  induction l with
  | nil => simp [setOD, lookupOD]
  | cons kv t ih =>
    obtain ⟨k', v'⟩ := kv
    by_cases h : (k' == k) = true
    · simp [setOD, lookupOD, h]
    · simp only [setOD, lookupOD, h, Bool.false_eq_true, if_false]
      exact ih

theorem calculate_single (w : Worker) (u : String) (h : w.track = true) :
    Worker.calculate { w with finished := [u] } = calcStep { w with finished := [] } u := by
  unfold Worker.calculate
  split
  · rfl
  · rename_i hc
    exact absurd h hc

theorem calcStep_of_contains (w : Worker) (u : String)
    (h : containsKey u w.managed_tasks = true) :
    calcStep w u = { w with managed_tasks := eraseKey u w.managed_tasks,
                            messages_finished := w.messages_finished + 1 } := by
  unfold calcStep
  split
  · rfl
  · rename_i hc
    exact absurd h hc

theorem calcStep_of_not_contains (w : Worker) (u : String)
    (h : containsKey u w.managed_tasks = false) :
    calcStep w u = { w with warnings := w.warnings + 1 } := by
  unfold calcStep
  split
  · rename_i hc
    rw [h] at hc
    exact absurd hc (by simp)
  · rfl

/-- C8: a correlation id present in `managed_tasks` is removed exactly once
when its completion is drained: the drain deletes exactly that entry, bumps
`messages_finished` once and leaves every other field (warnings included)
unchanged.  Draining the same id a second time, once it is no longer
present, only logs the duplicate-completion warning: `managed_tasks` and
`messages_finished` are unchanged. -/
theorem duplicate_completion_once (w : Worker) (u : String)
    (h1 : w.track = true) (h2 : containsKey u w.managed_tasks = true)
    (h3 : containsKey u (eraseKey u w.managed_tasks) = false) :
    (Worker.calculate { w with finished := [u] } =
      { w with finished := [], managed_tasks := eraseKey u w.managed_tasks,
               messages_finished := w.messages_finished + 1 }) ∧
    (∀ w1, w1 = Worker.calculate { w with finished := [u] } →
      Worker.calculate { w1 with finished := [u] } =
        { w1 with finished := [], warnings := w1.warnings + 1 }) := by
  have hfe : Worker.calculate { w with finished := [u] } =
      { w with finished := [], managed_tasks := eraseKey u w.managed_tasks,
               messages_finished := w.messages_finished + 1 } := by
    rw [calculate_single w u h1]
    exact calcStep_of_contains { w with finished := [] } u h2
  refine ⟨hfe, ?_⟩
  intro w1 hw1
  have ht : w1.track = true := by
    rw [hw1, hfe]
    exact h1
  have hnc : containsKey u w1.managed_tasks = false := by
    rw [hw1, hfe]
    exact h3
  rw [calculate_single w1 u ht]
  exact calcStep_of_not_contains { w1 with finished := [] } u hnc

def c8w : Worker :=
  { messages_sent := 2, messages_finished := 0,
    managed_tasks := [("a", Item.dict (mkMsg "a")), ("b", Item.dict (mkMsg "b"))],
    finished := [], queue := [], cap := 10, alive := true, pid := 5,
    track := true, warnings := 0 }

theorem duplicate_completion_once_witness :
    (Worker.calculate { c8w with finished := ["a"] } =
      { c8w with finished := [], managed_tasks := eraseKey "a" c8w.managed_tasks,
                 messages_finished := c8w.messages_finished + 1 }) ∧
    (Worker.calculate { (Worker.calculate { c8w with finished := ["a"] }) with finished := ["a"] } =
      { (Worker.calculate { c8w with finished := ["a"] }) with
          finished := [],
          warnings := (Worker.calculate { c8w with finished := ["a"] }).warnings + 1 }) :=
  ⟨(duplicate_completion_once c8w "a" rfl (by decide) (by decide)).1,
   (duplicate_completion_once c8w "a" rfl (by decide) (by decide)).2 _ rfl⟩

/-- A dict message with no correlation id yet. -/
def c9m : Msg := ⟨none, none, [], none, none, [], 42⟩

/-- C9: `put(message)` on a dict lacking a correlation id generates and
attaches one; for a tracked handle the message is recorded in
`managed_tasks` before the enqueue is attempted, so when the enqueue raises
queue-full the message is still present in `managed_tasks` (and the queue
is unchanged); on a non-full queue the message is enqueued at the back. -/
theorem put_records_before_enqueue (w : Worker) (m : Msg) (e : Env)
    (h1 : w.track = true) (h2 : needsUuid m = true) :
    (Worker.put w (Item.dict m) e).2.1 =
      Item.dict { m with uuid := some (uuidName e.uuidCtr) } ∧
    (w.cap ≤ w.queue.length →
      (Worker.put w (Item.dict m) e).2.2.2 = PutRes.full ∧
      lookupOD (uuidName e.uuidCtr) (Worker.put w (Item.dict m) e).1.managed_tasks =
        some (Item.dict { m with uuid := some (uuidName e.uuidCtr) }) ∧
      (Worker.put w (Item.dict m) e).1.queue = w.queue) ∧
    (w.queue.length < w.cap →
      (Worker.put w (Item.dict m) e).2.2.2 = PutRes.ok ∧
      (Worker.put w (Item.dict m) e).1.queue =
        w.queue ++ [Item.dict { m with uuid := some (uuidName e.uuidCtr) }]) := by
  unfold Worker.put
  simp only [h2, if_true, h1, Env.fresh]
  split <;> rename_i hq
  · refine ⟨rfl, fun hge => absurd hq (by simp at hq ⊢; omega), fun _ => ⟨rfl, ?_⟩⟩
    rw [calculate_queue]
  · have hql : ¬ (w.queue.length < w.cap) := by
      simpa using hq
    refine ⟨rfl, fun _ => ⟨rfl, ?_, rfl⟩, fun hlt => absurd hlt hql⟩
    exact lookup_setOD _ _ _

theorem put_records_before_enqueue_witness :
    (Worker.put c4full (Item.dict c9m) env0).2.1 =
      Item.dict { c9m with uuid := some (uuidName 0) } ∧
    (Worker.put c4full (Item.dict c9m) env0).2.2.2 = PutRes.full ∧
    lookupOD (uuidName 0) (Worker.put c4full (Item.dict c9m) env0).1.managed_tasks =
      some (Item.dict { c9m with uuid := some (uuidName 0) }) ∧
    (Worker.put c4full (Item.dict c9m) env0).1.queue = c4full.queue :=
  ⟨(put_records_before_enqueue c4full c9m env0 rfl rfl).1,
   (put_records_before_enqueue c4full c9m env0 rfl rfl).2.1 (by decide)⟩

/-- C1 counterexample: start from an initialized AutoscalePool with
`min_workers = 1` (so one worker, and `max_workers` clamped to 1); the
worker's process then dies, and the next `cleanup()` removes the dead
handle without replacing it, so the pool settles at 0 workers - strictly
below `min_workers`.  The capacity invariant is not preserved by `cleanup`. -/
theorem cleanup_can_drop_below_min :
    (match initPool 1 10 (some 1) 0 0 env0 with
     | some (p, _) =>
       p.min_workers = 1 ∧ p.workers.length = 1 ∧
       (match Pool.cleanup (Pool.die p 0) env0 0 with
        | CleanupRes.ok p1 _ _ => p1.workers.length = 0
        | _ => False)
     | none => False) :=
  ⟨rfl, rfl, rfl⟩

/-- C1 (amended): `up()` preserves both capacity bounds, and `cleanup()`
always preserves the ceiling (`len <= max_workers`); the floor
(`min_workers <= len`) is preserved by `cleanup()` only when every handle's
process is still alive - a dead handle is removed without replacement and
can leave the pool below `min_workers`. -/
theorem capacity_bounds_amended :
    (∀ p e p1 e1 i, Pool.upA p e = some (p1, e1, i) →
       p.min_workers ≤ p.workers.length → p.workers.length ≤ p.max_workers →
       p.min_workers ≤ p1.workers.length ∧ p1.workers.length ≤ p.max_workers) ∧
    (∀ p e now, p.workers.length ≤ p.max_workers →
       (match Pool.cleanup p e now with
        | CleanupRes.ok p1 _ _ => p1.workers.length ≤ p.max_workers
        | _ => True)) ∧
    (∀ p e now, (∀ w ∈ p.workers, w.alive = true) →
       (match Pool.cleanup p e now with
        | CleanupRes.ok p1 _ _ =>
          p.min_workers ≤ p.workers.length → p.min_workers ≤ p1.workers.length
        | _ => True)) := by
  refine ⟨?_, ?_, ?_⟩
  · intro p e p1 e1 i h hmin hmax
    obtain ⟨-, -, hu3, hu4⟩ := upA_spec p e p1 e1 i h
    exact ⟨Nat.le_trans hmin hu3, hu4 hmax⟩
  · intro p e now hle
    unfold Pool.cleanup
    cases hcp : cleanupPass p.min_workers now [] p.workers [] [] with
    | none => simp only [hcp]
    | some x =>
      obtain ⟨fin, orph, dn⟩ := x
      simp only [hcp]
      cases hrd : redeliver orph { p with workers := fin } e with
      | none => simp only [hrd]
      | some y =>
        obtain ⟨p1, e1⟩ := y
        simp only [hrd]
        have hflen := cleanupPass_some_length p.min_workers now p.workers [] [] [] fin orph dn hcp
        obtain ⟨-, -, hr3⟩ := redeliver_spec orph _ e p1 e1 hrd
        have hf2 : fin.length ≤ p.max_workers := by
          simp only [List.length_nil, Nat.zero_add] at hflen
          omega
        exact hr3 hf2
  · intro p e now hA
    unfold Pool.cleanup
    cases hcp : cleanupPass p.min_workers now [] p.workers [] [] with
    | none => simp only [hcp]
    | some x =>
      obtain ⟨fin, orph, dn⟩ := x
      simp only [hcp]
      obtain ⟨ho, hlow⟩ := cleanupPass_alive_lower p.min_workers now p.workers [] [] []
        fin orph dn hA hcp
      subst ho
      simp only [redeliver]
      intro hmin
      exact hlow (by simpa using hmin)

theorem capacity_bounds_amended_witness :
    (pW.min_workers ≤ pW.workers.length ∧ pW.workers.length ≤ pW.max_workers) ∧
    (match Pool.cleanup pW env0 0 with
     | CleanupRes.ok p1 _ _ => p1.workers.length ≤ pW.max_workers
     | _ => True) ∧
    (match Pool.cleanup pW env0 0 with
     | CleanupRes.ok p1 _ _ =>
       pW.min_workers ≤ pW.workers.length → pW.min_workers ≤ p1.workers.length
     | _ => True) :=
  ⟨capacity_bounds_amended.1 pW env0 pW env0 0 rfl (by decide) (by decide),
   capacity_bounds_amended.2.1 pW env0 0 (by decide),
   capacity_bounds_amended.2.2 pW env0 0 (by decide)⟩

theorem put_pid (w : Worker) (body : Item) (e : Env) :
    ((w.put body e).1).pid = w.pid := by
  unfold Worker.put
  cases body with
  | quit =>
    simp only []
    split <;> split <;> simp [calculate_pid]
  | dict m =>
    simp only []
    by_cases hn : needsUuid m = true <;>
      simp only [hn, if_true, Bool.false_eq_true, if_false] <;>
      split <;> split <;> simp [calculate_pid]

theorem map_pid_set (l : List Worker) (i : Nat) (w w' : Worker)
    (h : l[i]? = some w) (hp : w'.pid = w.pid) :
    (l.set i w').map (fun x => x.pid) = l.map (fun x => x.pid) := by
  induction l generalizing i with
  | nil => rfl
  | cons a t ih =>
    cases i with
    | zero =>
      simp only [List.getElem?_cons_zero, Option.some.injEq] at h
      subst h
      simp [List.set, hp]
    | succ n =>
      simp only [List.getElem?_cons_succ] at h
      simp [List.set, ih n h]

theorem bindStep_pids (p : Pool) (body : Item) :
    (p.writeBindStep body).1.workers.map (fun x => x.pid) =
      p.workers.map (fun x => x.pid) := by
  unfold Pool.writeBindStep Pool.addBindKwargs
  cases body with
  | quit => rfl
  | dict m =>
    simp only []
    split
    · split
      · simp [List.map_map, Function.comp, calculate_pid]
      · rfl
    · rfl

theorem shouldGrow_pids (p : Pool) :
    ((Pool.shouldGrow p).1).workers.map (fun x => x.pid) =
      p.workers.map (fun x => x.pid) := by
  unfold Pool.shouldGrow
  split
  · rfl
  · simp [List.map_map, Function.comp, busy_fst_pid]

theorem baseWriteGo_pids (order : List Nat) (p : Pool) (body : Item) (e : Env) :
    (baseWriteGo p order body e).1.workers.map (fun x => x.pid) =
      p.workers.map (fun x => x.pid) := by
  induction order generalizing p body e with
  | nil => rfl
  | cons i rest ih =>
    unfold baseWriteGo
    cases hg : p.workers[i]? with
    | none => simp only [hg]; exact ih p body e
    | some w =>
      simp only [hg]
      cases hr : ((w.put body e).2.2.2) with
      | ok =>
        simp only [hr]
        exact map_pid_set p.workers i w _ hg (put_pid w body e)
      | full =>
        simp only [hr]
        rw [ih]
        exact map_pid_set p.workers i w _ hg (put_pid w body e)

theorem writeALoop_pids (order : List Nat) (p : Pool) (body : Item) (pref : Nat) (e : Env) :
    (writeALoop p order body pref e).1.workers.map (fun x => x.pid) =
      p.workers.map (fun x => x.pid) := by
  induction order generalizing p body e with
  | nil =>
    unfold writeALoop Pool.baseWrite
    exact baseWriteGo_pids _ p body e
  | cons i rest ih =>
    unfold writeALoop
    cases hg : p.workers[i]? with
    | none => simp only [hg]; exact ih p body e
    | some w =>
      simp only [hg]
      cases hb : (w.busy).2 with
      | true =>
        simp only [hb, if_true]
        rw [ih]
        exact map_pid_set p.workers i w _ hg (busy_fst_pid w)
      | false =>
        simp only [hb, Bool.false_eq_true, if_false]
        show ((p.workers.set i (w.busy).1).set i
            (((Worker.busy w).1.put body e).1)).map (fun x => x.pid) =
          p.workers.map (fun x => x.pid)
        rw [List.set_set]
        refine map_pid_set p.workers i w _ hg ?_
        rw [put_pid, busy_fst_pid]

theorem upA_pids (p : Pool) (e : Env) (p1 : Pool) (e1 : Env) (i : Nat)
    (h : Pool.upA p e = some (p1, e1, i)) :
    ∀ x ∈ p.workers.map (fun w => w.pid), x ∈ p1.workers.map (fun w => w.pid) := by
  unfold Pool.upA at h
  cases hf : p.full with
  | true =>
    rw [hf] at h
    simp only [if_true] at h
    cases hw : p.workers.length with
    | zero => rw [hw] at h; exact absurd h (by simp)
    | succ n =>
      rw [hw] at h
      simp only [Option.some.injEq, Prod.mk.injEq] at h
      obtain ⟨hp, -⟩ := h
      subst hp
      exact fun x hx => hx
  | false =>
    rw [hf] at h
    simp only [Bool.false_eq_true, if_false, Pool.baseUp, Option.some.injEq,
      Prod.mk.injEq] at h
    obtain ⟨h1, -⟩ := h
    rw [← h1]
    intro x hx
    split <;> simp [List.map_append, List.mem_append] <;> left <;> simpa using hx

theorem writeA_pids (p : Pool) (pref : Nat) (body : Item) (e : Env) :
    ∀ x ∈ p.workers.map (fun w => w.pid),
      x ∈ (p.writeA pref body e).1.workers.map (fun w => w.pid) := by
  unfold Pool.writeA
  simp only []
  cases hsg : (Pool.shouldGrow (p.writeBindStep body).1).2 with
  | false =>
    simp only [hsg, Bool.false_eq_true, if_false]
    intro x hx
    rw [writeALoop_pids, shouldGrow_pids, bindStep_pids]
    exact hx
  | true =>
    simp only [hsg, if_true]
    cases hup : Pool.upA (Pool.shouldGrow (p.writeBindStep body).1).1 e with
    | none =>
      simp only [Option.map_none']
      intro x hx
      rw [shouldGrow_pids, bindStep_pids]
      exact hx
    | some y =>
      obtain ⟨pu, eu, iu⟩ := y
      simp only [Option.map_some']
      intro x hx
      rw [writeALoop_pids]
      refine upA_pids _ e pu eu iu hup x ?_
      rw [shouldGrow_pids, bindStep_pids]
      exact hx

theorem redeliver_pids (orphans : List Item) :
    ∀ p e p1 e1, redeliver orphans p e = some (p1, e1) →
      ∀ x ∈ p.workers.map (fun w => w.pid), x ∈ p1.workers.map (fun w => w.pid) := by
  induction orphans with
  | nil =>
    intro p e p1 e1 h x hx
    simp only [redeliver, Option.some.injEq, Prod.mk.injEq] at h
    obtain ⟨h1, -⟩ := h
    rw [← h1]
    exact hx
  | cons m rest ih =>
    intro p e p1 e1 h x hx
    unfold redeliver at h
    cases hz : (p.workers.length == 0) with
    | true =>
      rw [hz] at h
      simp only [if_true] at h
      cases hup : Pool.upA p e with
      | none => rw [hup] at h; exact absurd h (by simp)
      | some y =>
        obtain ⟨pu, eu, iu⟩ := y
        rw [hup] at h
        simp only [Option.map_some'] at h
        cases hl : pu.workers.length with
        | zero => rw [hl] at h; exact absurd h (by simp)
        | succ k =>
          rw [hl] at h
          refine ih _ _ p1 e1 h x ?_
          exact writeA_pids pu _ m _ x (upA_pids p e pu eu iu hup x hx)
    | false =>
      rw [hz] at h
      simp only [Bool.false_eq_true, if_false] at h
      cases hl : p.workers.length with
      | zero => simp [hl] at hz
      | succ k =>
        rw [hl] at h
        refine ih _ _ p1 e1 h x ?_
        exact writeA_pids p _ m _ x hx

theorem cleanupPass_floor (mn now : Nat) (rest : List Worker) :
    ∀ retained orphans down,
      retained.length + rest.length ≤ mn →
      ∃ orph, cleanupPass mn now retained rest orphans down =
        some (retained ++ (rest.filter (fun w => w.alive)).map
                (fun w => Worker.stuckCheck (Worker.busy w).1 now),
              orph, down) := by
  induction rest with
  | nil =>
    intro retained orphans down _
    exact ⟨orphans, by simp [cleanupPass]⟩
  | cons w t ih =>
    intro retained orphans down hm
    unfold cleanupPass
    cases ha : w.alive with
    | false =>
      simp only [ha, Bool.not_false, if_true]
      have hstep := ih retained (orphans ++ ((w.currentTask).1.orphanedTasks).2) down
        (by simp only [List.length_cons] at hm; omega)
      simpa [List.filter_cons, ha] using hstep
    | true =>
      simp only [ha, Bool.not_true, Bool.false_eq_true, if_false]
      have hc : (!(w.busy).2 && decide (retained.length + t.length + 1 > mn)) = false := by
        have hngt : ¬(retained.length + t.length + 1 > mn) := by
          simp only [List.length_cons] at hm
          omega
        simp [hngt]
      rw [hc]
      simp only [Bool.false_eq_true, if_false]
      obtain ⟨orph, he⟩ := ih (retained ++ [Worker.stuckCheck (w.busy).1 now]) orphans down
        (by simp only [List.length_append, List.length_cons, List.length_nil] at hm ⊢; omega)
      refine ⟨orph, ?_⟩
      rw [he]
      simp [List.filter_cons, ha, List.append_assoc]

/-- A pool at its floor holding one dead idle handle and one alive idle
handle. -/
def c6mix : Pool :=
  { min_workers := 2, queue_size := 10, max_workers := 10,
    task_manager_timeout := 0, scale_up_ct := 0, worker_count_max := 0,
    next_pid := 100, stateful := true,
    workers := [{ mkIdle 1 10 with alive := false }, mkIdle 2 10] }

/-- C6: with `min_workers = 2` and four alive idle handles, one `cleanup()`
sends `quit()` to and removes exactly the first two handles, leaving
exactly two.  More generally, on any pool at or below its floor - dead
handles included - `cleanup()` scales down nothing (no handle is sent
`quit()` and removed through the idle branch, so `down = []`), never
blocks, and every alive handle is still in the pool whenever the call
settles; and on an all-alive pool at or below the floor the handle list is
preserved outright. -/
theorem scale_down_respects_floor :
    (match Pool.cleanup c6pool env0 0 with
     | CleanupRes.ok p1 _ down =>
       p1.workers.map (fun w => w.pid) = [3, 4] ∧
       down.map (fun w => w.pid) = [1, 2] ∧
       down.map (fun w => w.queue) = [[Item.quit], [Item.quit]]
     | _ => False) ∧
    (∀ p e now, p.workers.length ≤ p.min_workers →
       (match Pool.cleanup p e now with
        | CleanupRes.ok p1 _ down =>
          down = [] ∧
          ∀ w ∈ p.workers, w.alive = true → w.pid ∈ p1.workers.map (fun x => x.pid)
        | CleanupRes.blocked => False
        | CleanupRes.crashed => True)) ∧
    (∀ p e now, (∀ w ∈ p.workers, w.alive = true) →
       p.workers.length ≤ p.min_workers →
       (match Pool.cleanup p e now with
        | CleanupRes.ok p1 _ down =>
          p1.workers.map (fun w => w.pid) = p.workers.map (fun w => w.pid) ∧ down = []
        | _ => False)) := by
  refine ⟨⟨rfl, rfl, rfl⟩, ?_, ?_⟩
  · intro p e now hm
    obtain ⟨orph0, hpass⟩ := cleanupPass_floor p.min_workers now p.workers [] [] []
      (by simpa using hm)
    simp only [List.nil_append] at hpass
    unfold Pool.cleanup
    cases hcp : cleanupPass p.min_workers now [] p.workers [] [] with
    | none => rw [hpass] at hcp; exact absurd hcp (by simp)
    | some x =>
      obtain ⟨fin, orph, dn⟩ := x
      have hcp2 := hcp
      rw [hpass] at hcp2
      simp only [Option.some.injEq, Prod.mk.injEq] at hcp2
      obtain ⟨hfin, -, hdn⟩ := hcp2
      simp only [hcp]
      cases hrd : redeliver orph { p with workers := fin } e with
      | none => simp only [hrd]
      | some y =>
        obtain ⟨p1, e1⟩ := y
        simp only [hrd]
        refine ⟨hdn.symm, ?_⟩
        intro w hw hal
        refine redeliver_pids orph _ e p1 e1 hrd w.pid ?_
        show w.pid ∈ fin.map (fun x => x.pid)
        rw [← hfin]
        simp only [List.map_map]
        refine List.mem_map.2 ⟨w, List.mem_filter.2 ⟨hw, hal⟩, ?_⟩
        simp [Function.comp, stuckCheck_pid, busy_fst_pid]
  · intro p e now hA hm
    have hpass := cleanupPass_allAlive p.min_workers now p.workers [] [] [] hA
      (by simpa using hm)
    unfold Pool.cleanup
    rw [hpass]
    simp only [redeliver, List.nil_append]
    refine ⟨?_, by simp⟩
    rw [List.map_map]
    simp [Function.comp, stuckCheck_pid, busy_fst_pid]

theorem scale_down_respects_floor_witness :
    (match Pool.cleanup c6mix env0 0 with
     | CleanupRes.ok p1 _ down =>
       down = [] ∧
       ∀ w ∈ c6mix.workers, w.alive = true → w.pid ∈ p1.workers.map (fun x => x.pid)
     | CleanupRes.blocked => False
     | CleanupRes.crashed => True) ∧
    (match Pool.cleanup c6small env0 0 with
     | CleanupRes.ok p1 _ down =>
       p1.workers.map (fun w => w.pid) = c6small.workers.map (fun w => w.pid) ∧ down = []
     | _ => False) :=
  ⟨scale_down_respects_floor.2.1 c6mix env0 0 (by decide),
   scale_down_respects_floor.2.2 c6small env0 0 (by decide) (by decide)⟩

/-- The C2 pool right after the per-handle pass: the dead handle is gone,
only the busy survivor remains. -/
def c2post : Pool :=
  { min_workers := 1, queue_size := 10, max_workers := 10,
    task_manager_timeout := 0, scale_up_ct := 0, worker_count_max := 0,
    next_pid := 100, stateful := true, workers := [busyLive 99] }

/-- A fresh worker right after one redelivered message (key `k`) was put on
it. -/
def deliveredW (pid : Nat) (k : String) (m : Msg) : Worker :=
  { messages_sent := 1, messages_finished := 0,
    managed_tasks := [(k, Item.dict m)], finished := [],
    queue := [Item.dict m], cap := 10, alive := true, pid := pid,
    track := true, warnings := 0 }

/-- C2 pool state after redelivering all three orphaned items. -/
def c2p3 (b c d : Nat) : Pool :=
  { c2post with
      workers := [busyLive 99, deliveredW 100 "e1" (c2eb d),
                  deliveredW 101 "u2" (c2m2 b), deliveredW 102 "u3" (c2m3 c)],
      next_pid := 103, scale_up_ct := 3, worker_count_max := 4 }

set_option maxHeartbeats 1600000 in
/-- C2: for every stateful handle whose process is dead while it holds one
executing task (real work carrying one failure-callback descriptor, payload
`d`) and two queued tasks (payloads `b`, `c`), `orphaned_tasks` recovers
exactly three items in order - the executing task's failure callback, then
the two queued messages, quit sentinels excluded.  And running `cleanup()`
on such a pool (payloads fixed to 1, 2, 3, 4 here) removes the dead handle
from the pool while redelivering exactly those three items (onto the fresh
handles its write calls grow, the survivor being busy). -/
theorem orphan_completeness (a b c d : Nat) :
    (Worker.orphanedTasks (c2dead a b c d)).2 =
      [Item.dict (c2eb d), Item.dict (c2m2 b), Item.dict (c2m3 c)] ∧
    (match Pool.cleanup (c2pool 1 2 3 4) env0 0 with
     | CleanupRes.ok p1 _ down =>
       p1.workers.map (fun w => w.pid) = [99, 100, 101, 102] ∧
       p1.workers.map (fun w => w.queue) =
         [[], [Item.dict (c2eb 4)], [Item.dict (c2m2 2)], [Item.dict (c2m3 3)]] ∧
       down = []
     | _ => False) := by
  refine ⟨rfl, ?_⟩
  have s6 : Pool.cleanup (c2pool 1 2 3 4) env0 0 =
      CleanupRes.ok (c2p3 2 3 4) env0 [] := rfl
  rw [s6]
  exact ⟨rfl, rfl, rfl⟩

/-- The fresh worker created during C5 redelivery (fork outcome `f`). -/
def c5newW (f : Bool) : Worker :=
  { messages_sent := 0, messages_finished := 0, managed_tasks := [],
    finished := [], queue := [], cap := 10, alive := f, pid := 100,
    track := true, warnings := 0 }

/-- The same worker after the orphaned message was put on it. -/
def c5newDelivered (f : Bool) : Worker :=
  { messages_sent := 1, messages_finished := 0,
    managed_tasks := [("o1", Item.dict c5msg)], finished := [],
    queue := [Item.dict c5msg], cap := 10, alive := f, pid := 100,
    track := true, warnings := 0 }

/-- The C5 pool after the dead handle was removed and redelivery's `write`
grew a fresh handle. -/
def c5grown (f : Bool) : Pool :=
  { c5pool with
      workers := [busyLive 11, c5newW f],
      next_pid := 101, scale_up_ct := 1, worker_count_max := 2 }

/-- The C5 pool after redelivery finished. -/
def c5fin (f : Bool) : Pool :=
  { c5pool with
      workers := [busyLive 11, c5newDelivered f],
      next_pid := 101, scale_up_ct := 1, worker_count_max := 2 }

/-- C5 counterexample: the claim says each orphaned message is delivered to
a uniformly-random EXISTING handle by direct enqueue, bypassing the normal
write placement logic.  On a pool whose only surviving handle (pid 11) is
busy - so `random.choice` can only pick it - `cleanup()` instead runs the
message through the pool's own `write`: `should_grow` fires, a brand-new
handle (pid 100) is created, and the message lands on it; the randomly
chosen existing handle receives nothing. -/
theorem redelivery_goes_through_write :
    (match Pool.cleanup c5pool env0 0 with
     | CleanupRes.ok p1 _ down =>
       p1.workers.map (fun w => w.pid) = [11, 100] ∧
       p1.workers.map (fun w => w.queue) = [[], [Item.dict c5msg]] ∧
       down = []
     | _ => False) := by
  have s : Pool.cleanup c5pool env0 0 = CleanupRes.ok (c5fin true) env0 [] := rfl
  rw [s]
  exact ⟨rfl, rfl, rfl⟩

/-- C5 (amended): after the per-handle pass, each orphaned message is
resubmitted through the pool's NORMAL `write` with a uniformly-random
preferred index (one `up()` is forced first only if the pool is empty), so
the usual placement logic applies: growth on `should_grow` and delivery to
a non-busy handle.  On the C5 scenario this holds for every stream of
random draws and fork outcomes: the pool always ends with the busy
survivor untouched plus one new handle holding the message. -/
theorem redelivery_via_write_amended (rs : List Nat) (fks : List Bool) :
    (match Pool.cleanup c5pool ⟨rs, 0, fks⟩ 0 with
     | CleanupRes.ok p1 _ down =>
       p1.workers.map (fun w => w.pid) = [11, 100] ∧
       p1.workers.map (fun w => w.queue) = [[], [Item.dict c5msg]] ∧
       down = []
     | _ => False) := by
  have key : ∀ o : List Nat, o = [0, 1] ∨ o = [1, 0] →
      writeALoop (c5grown (fks.headD true)) o (Item.dict c5msg)
        ((rs.headD 0) % 1) ⟨(rs.tail).drop 2, 0, fks.tail⟩ =
      (c5fin (fks.headD true), ⟨(rs.tail).drop 2, 0, fks.tail⟩, none) := by
    rintro o (rfl | rfl) <;> rfl
  have expand : Pool.cleanup c5pool ⟨rs, 0, fks⟩ 0 =
      CleanupRes.ok
        (writeALoop (c5grown (fks.headD true))
          (shuffleWith ((rs.tail).take 2) [0, 1]) (Item.dict c5msg)
          ((rs.headD 0) % 1) ⟨(rs.tail).drop 2, 0, fks.tail⟩).1
        (writeALoop (c5grown (fks.headD true))
          (shuffleWith ((rs.tail).take 2) [0, 1]) (Item.dict c5msg)
          ((rs.headD 0) % 1) ⟨(rs.tail).drop 2, 0, fks.tail⟩).2.1
        [] := rfl
  rcases shuffleWith_pair ((rs.tail).take 2) (0 : Nat) 1 with h | h
  · rw [expand, h, key [0, 1] (Or.inl rfl)]
    exact ⟨rfl, rfl, rfl⟩
  · rw [expand, h, key [1, 0] (Or.inr rfl)]
    exact ⟨rfl, rfl, rfl⟩
